import Mathlib

/-!
Verification of the Maekawa mutual-exclusion repository.

The Python sources are shallowly embedded: Python strings become
`List Char`, Python `int` becomes `Nat` (all timestamps and node ids in
the program are non-negative), `None` becomes `Option.none`, sets become
`Finset Nat`, and the `PriorityQueue` is modelled as a list whose `get`
removes a minimal element in the lexicographic tuple order (the observable
behaviour of the heap).  Exceptions become an explicit error type.
-/

namespace Maekawa

/-- The two exception kinds `Message.parse` (src/message.py) can raise:
`indexError` models the Python `IndexError` raised by evaluating a
negative index on an empty string, `valueError` the explicit
`ValueError("JSON must end in }")`. -/
inductive ParseErr where
  | indexError : ParseErr
  | valueError : ParseErr
deriving DecidableEq

/-- Embedding of the Python expression `str.find("}" + "\x7b")` used by
`Message.parse` (src/message.py line 107): index of the leftmost
occurrence of the two-character pattern, `none` when there is none
(Python returns -1). -/
def findSplit : List Char → Option Nat
  | [] => none
  | [_] => none
  | a :: b :: t =>
    if a = '}' ∧ b = '{' then some 0
    else (findSplit (b :: t)).map (· + 1)

theorem findSplit_some_le {s : List Char} {k : Nat}
    (h : findSplit s = some k) : k + 2 ≤ s.length := by
  induction s generalizing k with
  | nil => simp [findSplit] at h
  | cons a t ih =>
    cases t with
    | nil => simp [findSplit] at h
    | cons b u =>
      rw [findSplit] at h
      split at h
      · cases h
        simp [List.length]
      · rw [Option.map_eq_some'] at h
        obtain ⟨k', hk', rfl⟩ := h
        have := ih hk'
        simp [List.length] at this ⊢
        omega

/-- Fuel-indexed embedding of the `while True` loop of `Message.parse`
(src/message.py lines 105-122).  Each iteration looks for a `}` `\x7b`
junction; if none is found the remaining string must end in `}` (reading
`str[-1]` raises `IndexError` on an empty string), otherwise the piece up
to and including the junction `}` is split off and the loop continues on
the rest.  The loop consumes at least one character per iteration, so any
fuel exceeding the length of the input makes the fuel bound unreachable. -/
def parseGo : Nat → List Char → Except ParseErr (List (List Char))
  | 0, _ => .error .indexError
  | fuel + 1, s =>
    match findSplit s with
    | none =>
      match s.getLast? with
      | none => .error .indexError
      | some c => if c = '}' then .ok [s] else .error .valueError
    | some k =>
      match (s.take (k + 1)).getLast? with
      | none => .error .indexError
      | some c =>
        if c = '}' then
          match parseGo fuel (s.drop (k + 1)) with
          | .ok ms => .ok (s.take (k + 1) :: ms)
          | .error e => .error e
        else .error .valueError

/-- `Message.parse` (src/message.py): the loop runs on the input string;
`s.length + 1` units of fuel are strictly more than the number of
iterations the loop can perform. -/
def parse (s : List Char) : Except ParseErr (List (List Char)) :=
  parseGo (s.length + 1) s

/-- Embedding of Python `math.ceil(math.sqrt(n))` as used by
`Node.__form_colleagues` (src/node.py line 66): the least `m` with
`n ≤ m * m` (the candidates `0, 1, ..., n` are scanned in increasing
order and `m = n` always qualifies, so the scan always succeeds). -/
def ceilSqrt (n : Nat) : Nat :=
  match (List.range (n + 1)).find? (fun m => n ≤ m * m) with
  | some m => m
  | none => n

theorem le_ceilSqrt_sq (n : Nat) : n ≤ ceilSqrt n * ceilSqrt n := by
  unfold ceilSqrt
  cases hf : (List.range (n + 1)).find? (fun m => n ≤ m * m) with
  | none =>
    exfalso
    have hmem : n ∈ List.range (n + 1) := List.mem_range.mpr (Nat.lt_succ_self n)
    have hp : (fun m => decide (n ≤ m * m)) n = true := by
      simp only [decide_eq_true_eq]
      cases n with
      | zero => simp
      | succ k => exact Nat.le_mul_of_pos_left _ (Nat.succ_pos k)
    have hsome : ((List.range (n + 1)).find? (fun m => n ≤ m * m)).isSome :=
      List.find?_isSome.mpr ⟨n, hmem, hp⟩
    rw [hf] at hsome
    simp at hsome
  | some m =>
    have := List.find?_some hf
    simpa using this

theorem ceilSqrt_pos {n : Nat} (h : 1 ≤ n) : 1 ≤ ceilSqrt n := by
  by_contra hc
  push_neg at hc
  have h0 : ceilSqrt n = 0 := by omega
  have hle := le_ceilSqrt_sq n
  rw [h0] at hle
  simp at hle
  omega

/-- The row loop of `Node.__form_colleagues` (src/node.py lines 71-75):
positions `row * m + j` for `j < m`, stopping (`break`) at the first
position that reaches `numNodes`. -/
def rowCells (row m numNodes : Nat) : List Nat :=
  ((List.range m).map (fun j => row * m + j)).takeWhile (fun pos => pos < numNodes)

/-- The column loop of `Node.__form_colleagues` (src/node.py lines 77-81):
positions `i2 * m + col` for `i2 < m`, skipping (`continue`) positions
that reach `numNodes`. -/
def colCells (col m numNodes : Nat) : List Nat :=
  ((List.range m).map (fun i2 => i2 * m + col)).filter (fun pos => pos < numNodes)

/-- The set built by the two loops of `Node.__form_colleagues` before the
random-padding loop (src/node.py lines 69-81). -/
def baseColleagues (numNodes i : Nat) : Finset Nat :=
  (rowCells (i / ceilSqrt numNodes) (ceilSqrt numNodes) numNodes).toFinset ∪
    (colCells (i % ceilSqrt numNodes) (ceilSqrt numNodes) numNodes).toFinset

/-- The random-padding loop of `Node.__form_colleagues` (src/node.py lines
84-85): `while len(colleagues) < target: colleagues.add(random)`.  The
stream of values produced by `random.randint(0, numNodes-1)` is passed in
as an explicit list of draws; the result is `none` when the draws are
exhausted while the set is still below the target size (i.e. the loop is
still running after consuming that many random values). -/
def padLoop (target : Nat) (s : Finset Nat) : List Nat → Option (Finset Nat)
  | [] => if s.card < target then none else some s
  | d :: ds => if s.card < target then padLoop target (insert d s) ds else some s

/-- `Node.__form_colleagues` (src/node.py lines 61-88) for a node `i` out
of `numNodes`, with the random draws made explicit: build the row/column
set, pad it to size `2 * ceilSqrt numNodes - 1` with the draws, then
discard `i` itself. -/
def formColleagues (numNodes i : Nat) (draws : List Nat) : Option (Finset Nat) :=
  (padLoop (2 * ceilSqrt numNodes - 1) (baseColleagues numNodes i) draws).map
    (fun s => s.erase i)

theorem takeWhile_eq_filter_of_sorted {N : Nat} :
    ∀ l : List Nat, l.Pairwise (· ≤ ·) →
      l.takeWhile (fun x => x < N) = l.filter (fun x => x < N) := by
  intro l hl
  induction l with
  | nil => rfl
  | cons a t ih =>
    rw [List.pairwise_cons] at hl
    by_cases ha : a < N
    · simp [List.takeWhile_cons, List.filter_cons, ha, ih hl.2]
    · have ht : t.filter (fun x => decide (x < N)) = [] := by
        rw [List.filter_eq_nil_iff]
        intro b hb
        have := hl.1 b hb
        simp only [decide_eq_true_eq]
        omega
      simp [List.takeWhile_cons, List.filter_cons, ha, ht]

theorem rowCells_eq_filter (row m numNodes : Nat) :
    rowCells row m numNodes =
      ((List.range m).map (fun j => row * m + j)).filter (fun pos => pos < numNodes) := by
  apply takeWhile_eq_filter_of_sorted
  apply List.Pairwise.map
  · intro a b hab
    exact hab
  · apply List.pairwise_le_range ..|>.imp
    intro a b hab
    omega

theorem self_mem_baseColleagues {numNodes i : Nat} (hn : 1 ≤ numNodes)
    (hi : i < numNodes) : i ∈ baseColleagues numNodes i := by
  unfold baseColleagues
  rw [Finset.mem_union]
  right
  rw [List.mem_toFinset]
  unfold colCells
  rw [List.mem_filter]
  constructor
  · rw [List.mem_map]
    refine ⟨i / ceilSqrt numNodes, ?_, ?_⟩
    · rw [List.mem_range]
      have hm : 1 ≤ ceilSqrt numNodes := ceilSqrt_pos hn
      have hsq := le_ceilSqrt_sq numNodes
      have : i < ceilSqrt numNodes * ceilSqrt numNodes := lt_of_lt_of_le hi hsq
      exact Nat.div_lt_of_lt_mul this
    · rw [Nat.mul_comm]
      exact Nat.div_add_mod i (ceilSqrt numNodes)
  · simpa using hi

theorem baseColleagues_card_le {numNodes i : Nat} (hn : 1 ≤ numNodes)
    (hi : i < numNodes) :
    (baseColleagues numNodes i).card ≤ 2 * ceilSqrt numNodes - 1 := by
  set m := ceilSqrt numNodes with hm
  have hm1 : 1 ≤ m := ceilSqrt_pos hn
  have hrow : (rowCells (i / m) m numNodes).toFinset.card ≤ m := by
    calc (rowCells (i / m) m numNodes).toFinset.card
        ≤ (rowCells (i / m) m numNodes).length := List.toFinset_card_le _
      _ ≤ ((List.range m).map (fun j => i / m * m + j)).length := by
          rw [rowCells_eq_filter]
          exact List.length_filter_le _ _
      _ = m := by simp
  have hcol : (colCells (i % m) m numNodes).toFinset.card ≤ m := by
    calc (colCells (i % m) m numNodes).toFinset.card
        ≤ (colCells (i % m) m numNodes).length := List.toFinset_card_le _
      _ ≤ ((List.range m).map (fun i2 => i2 * m + i % m)).length := by
          unfold colCells
          exact List.length_filter_le _ _
      _ = m := by simp
  have hinter : 1 ≤ ((rowCells (i / m) m numNodes).toFinset ∩
      (colCells (i % m) m numNodes).toFinset).card := by
    rw [Nat.one_le_iff_ne_zero, Ne, Finset.card_eq_zero, ← Ne,
      ← Finset.nonempty_iff_ne_empty]
    refine ⟨i, ?_⟩
    rw [Finset.mem_inter]
    constructor
    · rw [List.mem_toFinset, rowCells_eq_filter, List.mem_filter]
      constructor
      · rw [List.mem_map]
        refine ⟨i % m, ?_, ?_⟩
        · rw [List.mem_range]
          exact Nat.mod_lt i hm1
        · rw [Nat.mul_comm]
          exact Nat.div_add_mod i m
      · simpa using hi
    · have := self_mem_baseColleagues hn hi
      unfold baseColleagues at this
      rw [Finset.mem_union] at this
      rcases this with h | h
      · -- the union argument above always lands in the column side;
        -- reprove column membership directly
        rw [List.mem_toFinset]
        unfold colCells
        rw [List.mem_filter]
        constructor
        · rw [List.mem_map]
          refine ⟨i / m, ?_, ?_⟩
          · rw [List.mem_range]
            have hsq := le_ceilSqrt_sq numNodes
            rw [← hm] at hsq
            exact Nat.div_lt_of_lt_mul (lt_of_lt_of_le hi hsq)
          · rw [Nat.mul_comm]
            exact Nat.div_add_mod i m
        · simpa using hi
      · exact h
  have := Finset.card_union_add_card_inter
    (rowCells (i / m) m numNodes).toFinset (colCells (i % m) m numNodes).toFinset
  unfold baseColleagues
  rw [← hm]
  omega

theorem padLoop_spec {target : Nat} :
    ∀ (draws : List Nat) (s t : Finset Nat), s.card ≤ target →
      padLoop target s draws = some t → t.card = target ∧ s ⊆ t := by
  intro draws
  induction draws with
  | nil =>
    intro s t hcard h
    rw [padLoop] at h
    split at h
    · exact absurd h (by simp)
    · cases h
      exact ⟨by omega, Finset.Subset.refl s⟩
  | cons d ds ih =>
    intro s t hcard h
    rw [padLoop] at h
    split at h
    · rename_i hlt
      have hc : (insert d s).card ≤ target := by
        have := Finset.card_insert_le d s
        omega
      obtain ⟨h1, h2⟩ := ih (insert d s) t hc h
      exact ⟨h1, fun x hx => h2 (Finset.mem_insert_of_mem hx)⟩
    · cases h
      exact ⟨by omega, Finset.Subset.refl s⟩

/-- The message types of src/message.py (class `MessageType`). -/
inductive MessageType where
  | REQUEST : MessageType
  | GRANT : MessageType
  | RELEASE : MessageType
  | FAILED : MessageType
  | INQUIRE : MessageType
  | YIELD : MessageType
deriving DecidableEq

/-- A `Message` of src/message.py: type, source id, destination id,
Lamport timestamp, and the optional `data` payload, which when present is
the `(ts, src)` tuple of a contending request. -/
structure Message where
  msg_type : MessageType
  src : Nat
  dest : Option Nat
  ts : Nat
  data : Option (Nat × Nat)
deriving DecidableEq

/-- The per-node protocol state of src/node.py (class `Node`): the fields
touched by the message handlers and the request loop. -/
structure NodeSt where
  id : Nat
  lamport_ts : Nat
  colleagues : List Nat
  queue : List (Nat × Nat)
  grants_sent : Option (Nat × Nat)
  grants_received : Finset Nat
  yielded : Bool
  failed : Bool
  in_CS : Bool
deriving DecidableEq

/-- Python lexicographic comparison on `(ts, src)` tuples, as used by
`(hp_ts, hp_src) < (msg.ts, msg.src)` in `Node.request_handler`
(src/node.py line 177) and by the heap order of the `PriorityQueue`. -/
def tupLt (a b : Nat × Nat) : Bool :=
  a.1 < b.1 || (a.1 = b.1 && a.2 < b.2)

theorem tupLt_asymm {a b : Nat × Nat} (h : tupLt a b = true) :
    tupLt b a = false := by
  unfold tupLt at h ⊢
  simp only [Bool.or_eq_true, decide_eq_true_eq, Bool.and_eq_true] at h
  simp only [Bool.or_eq_false_iff, decide_eq_false_iff_not, Bool.and_eq_false_iff]
  omega

/-- `PriorityQueue.put`: the queue is modelled as the list of stored
entries; `put` adds an entry. -/
def qput (p : Nat × Nat) (q : List (Nat × Nat)) : List (Nat × Nat) := p :: q

/-- A minimal entry of the queue in the lexicographic tuple order (what
`PriorityQueue.get` returns). -/
def qmin : List (Nat × Nat) → Option (Nat × Nat)
  | [] => none
  | p :: ps =>
    some (match qmin ps with
          | none => p
          | some q => if tupLt q p then q else p)

/-- `PriorityQueue.get`: remove and return a minimal entry, or `none` on
an empty queue. -/
def qget (q : List (Nat × Nat)) : Option ((Nat × Nat) × List (Nat × Nat)) :=
  match qmin q with
  | none => none
  | some m => some (m, q.erase m)

/-- `NodeSend.send_message` (src/nodeSend.py lines 23-35) in the
non-multicast case: increment the Lamport clock, stamp the outgoing
message with the new clock value, and emit it. -/
def send_message (st : NodeSt) (m : Message) : NodeSt × Message :=
  ({ st with lamport_ts := st.lamport_ts + 1 },
   { m with ts := st.lamport_ts + 1 })

/-- `Node.request_handler` (src/node.py lines 164-214).  If a grant is
outstanding, compare its priority with the incoming request: when the
held grant wins, reply FAILED and enqueue the request, otherwise send
INQUIRE to the current grantee (carrying the incoming priority as data)
and enqueue the request.  With no grant outstanding, reply GRANT and
record the grantee. -/
def request_handler (st : NodeSt) (msg : Message) : NodeSt × List Message :=
  match st.grants_sent with
  | some (hp_ts, hp_src) =>
    if tupLt (hp_ts, hp_src) (msg.ts, msg.src) then
      let rep : Message := ⟨.FAILED, st.id, some msg.src, st.lamport_ts, none⟩
      let out := send_message st rep
      ({ out.1 with queue := qput (msg.ts, msg.src) out.1.queue }, [out.2])
    else
      let rep : Message := ⟨.INQUIRE, st.id, some hp_src, st.lamport_ts,
        some (msg.ts, msg.src)⟩
      let out := send_message st rep
      ({ out.1 with queue := qput (msg.ts, msg.src) out.1.queue }, [out.2])
  | none =>
    let rep : Message := ⟨.GRANT, st.id, some msg.src, st.lamport_ts, none⟩
    let out := send_message st rep
    ({ out.1 with grants_sent := some (msg.ts, msg.src) }, [out.2])

/-- `Node.yield_handler` (src/node.py lines 217-239): enqueue the
yielding message priority `(msg.ts, msg.src)`, clear `grants_sent` when
it equals that tuple, then dequeue the highest-priority entry and grant
it. -/
def yield_handler (st : NodeSt) (msg : Message) : NodeSt × List Message :=
  let st1 := { st with queue := qput (msg.ts, msg.src) st.queue }
  let st2 :=
    if st1.grants_sent = some (msg.ts, msg.src) then
      { st1 with grants_sent := none }
    else st1
  match qget st2.queue with
  | some ((q_ts, q_src), rest) =>
    let rep : Message := ⟨.GRANT, st2.id, some q_src, st2.lamport_ts, none⟩
    let out := send_message st2 rep
    ({ out.1 with queue := rest, grants_sent := some (q_ts, q_src) }, [out.2])
  | none => (st2, [])

/-- `Node.release_handler` (src/node.py lines 242-275): clear
`grants_sent` when it matches `(msg.ts, msg.src)`, purge every queued
entry whose source is the releasing node, then grant the
highest-priority remaining entry if any, else leave `grants_sent`
cleared. -/
def release_handler (st : NodeSt) (msg : Message) : NodeSt × List Message :=
  let st1 :=
    if st.grants_sent = some (msg.ts, msg.src) then
      { st with grants_sent := none }
    else st
  let st2 := { st1 with queue := st1.queue.filter (fun p => p.2 ≠ msg.src) }
  match qget st2.queue with
  | some ((q_ts, q_src), rest) =>
    let rep : Message := ⟨.GRANT, st2.id, some q_src, st2.lamport_ts, none⟩
    let out := send_message st2 rep
    ({ out.1 with queue := rest, grants_sent := some (q_ts, q_src) }, [out.2])
  | none => ({ st2 with grants_sent := none }, [])

/-- `Node.inquire_handler` (src/node.py lines 278-302): when not in the
critical section, mark `yielded`, drop the inquirer from
`grants_received`, and send YIELD back; otherwise ignore the INQUIRE. -/
def inquire_handler (st : NodeSt) (msg : Message) : NodeSt × List Message :=
  if st.in_CS then (st, [])
  else
    let rep : Message := ⟨.YIELD, st.id, some msg.src, st.lamport_ts, none⟩
    let st1 := { st with yielded := true,
                         grants_received := st.grants_received.erase msg.src }
    let out := send_message st1 rep
    (out.1, [out.2])

/-- `Node.grant_handler` (src/node.py lines 305-316): record the granting
node, reset the `yielded` and `failed` flags, and report whether the
condition variable is notified, which the code does exactly when
`not len(grants_received) < len(colleagues)` after the insertion. -/
def grant_handler (st : NodeSt) (msg : Message) : NodeSt × Bool :=
  let st1 := { st with grants_received := insert msg.src st.grants_received,
                       yielded := false,
                       failed := false }
  (st1, !(st1.grants_received.card < st1.colleagues.length))

/-- `Node.failed_handler` (src/node.py lines 319-325). -/
def failed_handler (st : NodeSt) : NodeSt :=
  { st with failed := true, yielded := true }

/-- Result of processing one received message: the successor node state,
the replies emitted, and whether the CS condition variable was
notified. -/
structure HOut where
  st : NodeSt
  sent : List Message
  notify : Bool
deriving DecidableEq

/-- The `match msg_type` dispatch of `NodeServer.process_message`
(src/nodeServer.py lines 78-92).  `MessageType` is a closed enumeration
here, so the `ValueError` branch for unknown types has no inhabitant. -/
def dispatch (st : NodeSt) (m : Message) : HOut :=
  match m.msg_type with
  | .REQUEST => let r := request_handler st m; ⟨r.1, r.2, false⟩
  | .YIELD => let r := yield_handler st m; ⟨r.1, r.2, false⟩
  | .RELEASE => let r := release_handler st m; ⟨r.1, r.2, false⟩
  | .INQUIRE => let r := inquire_handler st m; ⟨r.1, r.2, false⟩
  | .GRANT => let r := grant_handler st m; ⟨r.1, [], r.2⟩
  | .FAILED => ⟨failed_handler st, [], false⟩

/-- `NodeServer.process_message` (src/nodeServer.py lines 67-92): first
`lamport_ts = max(lamport_ts, msg.ts) + 1`, then dispatch on the message
type. -/
def process_message (st : NodeSt) (m : Message) : HOut :=
  dispatch { st with lamport_ts := max st.lamport_ts m.ts + 1 } m

/-- A node receive loop processing a sequence of incoming messages, each
through `NodeServer.process_message`. -/
def runMsgs (st : NodeSt) (ms : List Message) : NodeSt :=
  ms.foldl (fun s m => (process_message s m).st) st

/-- The exit condition of the wait loop in `Node.run` (src/node.py lines
113-118): the loop `while len(grants_received) < len(colleagues): wait()`
terminates, and `in_CS` is then set to true, exactly when
`len(grants_received) < len(colleagues)` is false. -/
def canEnterCS (st : NodeSt) : Bool :=
  !(st.grants_received.card < st.colleagues.length)

theorem parseGo_trailing :
    ∀ (fuel : Nat) (s : List Char), s.length < fuel → s ≠ [] →
      s.getLast? ≠ some '}' → parseGo fuel s = .error .valueError := by
  intro fuel
  induction fuel with
  | zero =>
    intro s hlen
    omega
  | succ f ih =>
    intro s hlen hne hlast
    cases hfs : findSplit s with
    | none =>
      cases hl : s.getLast? with
      | none => exact absurd (List.getLast?_eq_none_iff.mp hl) hne
      | some c =>
        have hc : ¬ c = '}' := fun h => hlast (h ▸ hl)
        simp [parseGo, hfs, hl, hc]
    | some k =>
      have hk := findSplit_some_le hfs
      cases hl : (s.take (k + 1)).getLast? with
      | none =>
        have h0 := List.getLast?_eq_none_iff.mp hl
        rcases List.take_eq_nil_iff.mp h0 with h | h
        · omega
        · subst h
          simp at hk
      | some c =>
        by_cases hc : c = '}'
        · have hd2 : s.drop (k + 1) ≠ [] := by
            intro h0
            have := congrArg List.length h0
            rw [List.length_drop] at this
            simp at this
            omega
          have hd1 : (s.drop (k + 1)).length < f := by
            rw [List.length_drop]
            omega
          have hd3 : (s.drop (k + 1)).getLast? = s.getLast? := by
            conv_rhs => rw [← List.take_append_drop (k + 1) s]
            rw [List.getLast?_append_of_ne_nil _ hd2]
          have hrec := ih (s.drop (k + 1)) hd1 hd2 (hd3 ▸ hlast)
          simp [parseGo, hfs, hl, hc, hrec]
        · simp [parseGo, hfs, hl, hc]

/-- C8: for every non-empty input whose last character is not `}`,
`Message.parse` raises the documented `ValueError` (the MalformedFrame
signal); such input is never silently accepted. -/
theorem parse_malformed_trailer (s : List Char) (hne : s ≠ [])
    (hlast : s.getLast? ≠ some '}') : parse s = .error .valueError :=
  parseGo_trailing (s.length + 1) s (Nat.lt_succ_self _) hne hlast

theorem parse_malformed_trailer_witness :
    parse ['{', 'a'] = .error .valueError :=
  parse_malformed_trailer ['{', 'a'] (by decide) (by decide)

theorem findSplit_boundary :
    ∀ (a b : List Char), findSplit a = none → a.getLast? = some '}' →
      b.head? = some '{' → findSplit (a ++ b) = some (a.length - 1) := by
  intro a
  induction a with
  | nil =>
    intro b _ hlast
    simp at hlast
  | cons c t ih =>
    intro b hfs hlast hhead
    cases t with
    | nil =>
      cases b with
      | nil => simp at hhead
      | cons b0 bs =>
        simp at hlast hhead
        subst hlast
        subst hhead
        simp [findSplit]
    | cons d u =>
      rw [findSplit] at hfs
      split at hfs
      · exact absurd hfs (by simp)
      · rename_i hnot
        rw [Option.map_eq_none'] at hfs
        rw [List.getLast?_cons_cons] at hlast
        have hrec := ih b hfs hlast hhead
        rw [List.cons_append, List.cons_append]
        rw [findSplit]
        split
        · rename_i hyes
          exact absurd hyes hnot
        · have hsh : d :: (u ++ b) = (d :: u) ++ b := by
            rw [List.cons_append]
          rw [hsh, hrec]
          simp only [Option.map_some', List.length_cons, Option.some.injEq]
          omega

theorem parseGo_flatten :
    ∀ (L : List (List Char)) (fuel : Nat), L ≠ [] →
      L.flatten.length < fuel →
      (∀ s ∈ L, s.head? = some '{' ∧ s.getLast? = some '}' ∧ findSplit s = none) →
      parseGo fuel L.flatten = .ok L := by
  intro L
  induction L with
  | nil =>
    intro fuel hne
    exact absurd rfl hne
  | cons s rest ih =>
    intro fuel hne hlen hall
    obtain ⟨hhead, hlast, hfs⟩ := hall s (List.mem_cons_self s rest)
    have hsne : s ≠ [] := by
      intro h
      rw [h] at hlast
      simp at hlast
    have hslen : 1 ≤ s.length := by
      cases s with
      | nil => exact absurd rfl hsne
      | cons _ _ => simp
    cases rest with
    | nil =>
      rw [List.flatten_cons, List.flatten_nil, List.append_nil] at hlen ⊢
      cases fuel with
      | zero => omega
      | succ f => simp [parseGo, hfs, hlast]
    | cons r rest2 =>
      have hjh : (r :: rest2).flatten.head? = some '{' := by
        obtain ⟨hrh, _, _⟩ := hall r (by simp)
        cases r with
        | nil => simp at hrh
        | cons r0 rs =>
          simp at hrh
          rw [List.flatten_cons, List.cons_append]
          simpa using hrh
      have hb := findSplit_boundary s (r :: rest2).flatten hfs hlast hjh
      rw [List.flatten_cons] at hlen ⊢
      cases fuel with
      | zero => omega
      | succ f =>
        have hk1 : s.length - 1 + 1 = s.length := by omega
        have htake : (s ++ (r :: rest2).flatten).take (s.length - 1 + 1) = s := by
          rw [hk1]
          exact List.take_left s _
        have hdrop : (s ++ (r :: rest2).flatten).drop (s.length - 1 + 1) =
            (r :: rest2).flatten := by
          rw [hk1]
          exact List.drop_left s _
        have hflen : (r :: rest2).flatten.length < f := by
          rw [List.length_append] at hlen
          omega
        have hrec := ih f (by simp) hflen
          (fun t ht => hall t (List.mem_cons_of_mem s ht))
        simp only [parseGo, hb]
        rw [htake, hdrop, hlast, hrec]
        rfl

/-- C7: for every non-empty list of serialized message strings, each a
JSON object string (starting with the opening brace, ending in `}`,
containing no junction pattern internally), `Message.parse` applied to
their concatenation returns exactly that list, in order. -/
theorem parse_flatten_roundtrip (L : List (List Char)) (hne : L ≠ [])
    (hall : ∀ s ∈ L, s.head? = some '{' ∧ s.getLast? = some '}' ∧
      findSplit s = none) :
    parse L.flatten = .ok L :=
  parseGo_flatten L (L.flatten.length + 1) hne (Nat.lt_succ_self _) hall

theorem parse_flatten_roundtrip_witness :
    parse (List.flatten [['{', '}'], ['{', 'a', '}']]) =
      .ok [['{', '}'], ['{', 'a', '}']] :=
  parse_flatten_roundtrip [['{', '}'], ['{', 'a', '}']] (by decide) (by decide)

/-- C10: `Message.parse` applied to the empty string evaluates `str[-1]`
on an empty string and so raises `IndexError`, not the documented
`ValueError`; the function is not total over all input strings with the
documented error signal. -/
theorem parse_empty_indexError : parse [] = .error .indexError := rfl

/-- C3 counterexample: for N = 4 and node 0 the construction needs no
random padding, the padded set is `{0, 1, 2}` of size `2⌈√4⌉ − 1 = 3`,
and after `i` is removed the returned colleagues set `{1, 2}` has size 2,
not `2⌈√4⌉ − 1 = 3`. -/
theorem formColleagues_card_counterexample :
    formColleagues 4 0 [] = some {1, 2} ∧
      ¬ (({1, 2} : Finset Nat).card = 2 * ceilSqrt 4 - 1 ∧
        0 ∉ ({1, 2} : Finset Nat)) := by
  decide

/-- C3 amended: for every N ≥ 1 and node id i < N, whenever the
construction finishes, the set reached by the union-and-pad step has size
exactly `2⌈√N⌉ − 1` and contains `i`; the returned colleagues set, with
`i` removed, has size exactly `2⌈√N⌉ − 2` and does not contain `i`. -/
theorem formColleagues_card (numNodes i : Nat) (draws : List Nat)
    (s : Finset Nat) (hn : 1 ≤ numNodes) (hi : i < numNodes)
    (h : formColleagues numNodes i draws = some s) :
    i ∉ s ∧ s.card = 2 * ceilSqrt numNodes - 2 := by
  unfold formColleagues at h
  rw [Option.map_eq_some'] at h
  obtain ⟨t, ht, rfl⟩ := h
  have hbase := baseColleagues_card_le hn hi
  obtain ⟨hcard, hsub⟩ := padLoop_spec draws (baseColleagues numNodes i) t hbase ht
  have hmem : i ∈ t := hsub (self_mem_baseColleagues hn hi)
  refine ⟨Finset.not_mem_erase i t, ?_⟩
  rw [Finset.card_erase_of_mem hmem, hcard]
  have hm := ceilSqrt_pos hn
  omega

theorem formColleagues_card_witness :
    0 ∉ ({1, 2} : Finset Nat) ∧
      ({1, 2} : Finset Nat).card = 2 * ceilSqrt 4 - 2 :=
  formColleagues_card 4 0 [] {1, 2} (by decide) (by decide) (by decide)

theorem padLoop_stuck {numNodes target : Nat} (htar : numNodes < target) :
    ∀ (draws : List Nat) (s : Finset Nat), (∀ x ∈ s, x < numNodes) →
      (∀ d ∈ draws, d < numNodes) → padLoop target s draws = none := by
  intro draws
  induction draws with
  | nil =>
    intro s hs _
    have hcard : s.card < target := by
      have : s ⊆ Finset.range numNodes := fun x hx =>
        Finset.mem_range.mpr (hs x hx)
      have := Finset.card_le_card this
      rw [Finset.card_range] at this
      omega
    simp [padLoop, hcard]
  | cons d ds ih =>
    intro s hs hd
    have hcard : s.card < target := by
      have : s ⊆ Finset.range numNodes := fun x hx =>
        Finset.mem_range.mpr (hs x hx)
      have := Finset.card_le_card this
      rw [Finset.card_range] at this
      omega
    rw [padLoop, if_pos hcard]
    refine ih (insert d s) ?_ (fun x hx => hd x (List.mem_cons_of_mem d hx))
    intro x hx
    rcases Finset.mem_insert.mp hx with h | hx2
    · subst h
      exact hd x (List.mem_cons_self x ds)
    · exact hs x hx2

/-- C4: for N = 2 the padding loop of `Node.__form_colleagues` never
terminates: the target size is `2⌈√2⌉ − 1 = 3`, every value the loop can
add is one of the two ids 0 and 1, so the set never reaches size 3 and no
finite sequence of random draws completes the construction. -/
theorem formColleagues_n2_diverges (draws : List Nat)
    (hd : ∀ d ∈ draws, d < 2) : formColleagues 2 0 draws = none := by
  unfold formColleagues
  rw [padLoop_stuck (by decide) draws (baseColleagues 2 0) ?_ hd]
  · rfl
  · intro x hx
    have : baseColleagues 2 0 = {0, 1} := by decide
    rw [this] at hx
    rcases Finset.mem_insert.mp hx with rfl | hx
    · omega
    · rw [Finset.mem_singleton] at hx
      omega

theorem formColleagues_n2_diverges_witness :
    formColleagues 2 0 [0, 1, 0, 1] = none :=
  formColleagues_n2_diverges [0, 1, 0, 1] (by decide)

/-- C1: the wait loop of `Node.run` exits, and `in_CS` is set, as soon as
`|grants_received| = |colleagues|`, not `|colleagues| + 1` as the spec
requires: with colleagues `[1, 2, 3]` and `grants_received = {0, 1, 2}`
(the self-grant plus GRANTs from only two of the three colleagues) the
loop condition is already false and the node enters the CS; likewise
`Node.grant_handler` notifies the condition at `|grants_received| =
|colleagues|`, one GRANT short of the claimed count. -/
theorem cs_entry_below_full_quorum :
    canEnterCS ⟨0, 0, [1, 2, 3], [], none, {0, 1, 2}, false, false, false⟩ = true ∧
    (⟨0, 0, [1, 2, 3], [], none, {0, 1, 2}, false, false, false⟩ :
        NodeSt).grants_received.card ≠ ([1, 2, 3] : List Nat).length + 1 ∧
    (grant_handler ⟨0, 0, [1, 2, 3], [], none, {0, 1}, false, false, false⟩
      ⟨.GRANT, 2, some 0, 9, none⟩).2 = true ∧
    (grant_handler ⟨0, 0, [1, 2, 3], [], none, {0, 1}, false, false, false⟩
      ⟨.GRANT, 2, some 0, 9, none⟩).1.grants_received.card ≠
      ([1, 2, 3] : List Nat).length + 1 := by
  decide

/-- C5: `Node.request_handler` is the claimed three-way case split on the
incoming priority `p = (msg.ts, msg.src)` against the held grant: with no
grant outstanding it sends GRANT to the requester and records `p`; when
the held grant has higher priority (is lexicographically smaller) it
enqueues `p` and sends FAILED to the requester; when the incoming request
has higher priority it enqueues `p` and sends INQUIRE to the current
grantee carrying `p` as data.  Every reply is stamped with the
incremented Lamport clock by the send path. -/
theorem request_handler_cases (st : NodeSt) (m : Message) :
    (st.grants_sent = none →
      request_handler st m =
        ({ st with lamport_ts := st.lamport_ts + 1,
                   grants_sent := some (m.ts, m.src) },
         [⟨.GRANT, st.id, some m.src, st.lamport_ts + 1, none⟩])) ∧
    (∀ g, st.grants_sent = some g → tupLt g (m.ts, m.src) = true →
      request_handler st m =
        ({ st with lamport_ts := st.lamport_ts + 1,
                   queue := qput (m.ts, m.src) st.queue },
         [⟨.FAILED, st.id, some m.src, st.lamport_ts + 1, none⟩])) ∧
    (∀ g, st.grants_sent = some g → tupLt (m.ts, m.src) g = true →
      request_handler st m =
        ({ st with lamport_ts := st.lamport_ts + 1,
                   queue := qput (m.ts, m.src) st.queue },
         [⟨.INQUIRE, st.id, some g.2, st.lamport_ts + 1,
           some (m.ts, m.src)⟩])) := by
  refine ⟨?_, ?_, ?_⟩
  · intro h
    simp [request_handler, send_message, h]
  · intro g hg hlt
    obtain ⟨gts, gsrc⟩ := g
    simp [request_handler, send_message, hg, hlt]
  · intro g hg hlt
    obtain ⟨gts, gsrc⟩ := g
    have hasym := tupLt_asymm hlt
    simp [request_handler, send_message, hg, hasym]

theorem request_handler_cases_witness :
    (request_handler ⟨0, 7, [1, 2], [], none, ∅, false, false, false⟩
        ⟨.REQUEST, 2, some 0, 5, none⟩ =
      (⟨0, 8, [1, 2], [], some (5, 2), ∅, false, false, false⟩,
       [⟨.GRANT, 0, some 2, 8, none⟩])) ∧
    (request_handler ⟨0, 7, [1, 2], [], some (1, 1), ∅, false, false, false⟩
        ⟨.REQUEST, 2, some 0, 5, none⟩ =
      (⟨0, 8, [1, 2], [(5, 2)], some (1, 1), ∅, false, false, false⟩,
       [⟨.FAILED, 0, some 2, 8, none⟩])) ∧
    (request_handler ⟨0, 7, [1, 2], [], some (5, 3), ∅, false, false, false⟩
        ⟨.REQUEST, 1, some 0, 1, none⟩ =
      (⟨0, 8, [1, 2], [(1, 1)], some (5, 3), ∅, false, false, false⟩,
       [⟨.INQUIRE, 0, some 3, 8, some (1, 1)⟩])) :=
  ⟨(request_handler_cases _ _).1 rfl,
   (request_handler_cases _ _).2.1 (1, 1) rfl (by decide),
   (request_handler_cases _ _).2.2 (5, 3) rfl (by decide)⟩

/-- C6: `NodeServer.process_message` first sets the Lamport clock to
`max(c, msg.ts) + 1` and only then dispatches to the type-specific
handler: processing any message factors through `dispatch` applied to a
state that differs from the pre-receive state exactly in the clock, which
holds `max(c, msg.ts) + 1`. -/
theorem process_message_clock (st : NodeSt) (m : Message) :
    ∃ st1, process_message st m = dispatch st1 m ∧
      st1.lamport_ts = max st.lamport_ts m.ts + 1 ∧
      st1.id = st.id ∧ st1.colleagues = st.colleagues ∧
      st1.queue = st.queue ∧ st1.grants_sent = st.grants_sent ∧
      st1.grants_received = st.grants_received ∧
      st1.yielded = st.yielded ∧ st1.failed = st.failed ∧
      st1.in_CS = st.in_CS :=
  ⟨{ st with lamport_ts := max st.lamport_ts m.ts + 1 },
    rfl, rfl, rfl, rfl, rfl, rfl, rfl, rfl, rfl, rfl⟩

/-- C9: the pending-request queue can hold the same source twice.  Node 0
grants node 3, then two higher-priority REQUESTs (from nodes 1 and 2)
each trigger an INQUIRE to node 3; node 3, not in the CS, answers YIELD
both times (`Node.inquire_handler` does not consult `yielded`), and
`Node.yield_handler` enqueues the YIELD message timestamp each time, so
after the run the queue is `[(11, 3), (10, 3)]` — source 3 twice. -/
theorem queue_duplicate_src :
    (runMsgs ⟨0, 0, [1, 2, 3], [], none, ∅, false, false, false⟩
      [⟨.REQUEST, 3, some 0, 5, none⟩, ⟨.REQUEST, 1, some 0, 1, none⟩,
       ⟨.REQUEST, 2, some 0, 2, none⟩, ⟨.YIELD, 3, some 0, 10, none⟩,
       ⟨.YIELD, 3, some 0, 11, none⟩]).queue = [(11, 3), (10, 3)] ∧
    ¬ ((runMsgs ⟨0, 0, [1, 2, 3], [], none, ∅, false, false, false⟩
      [⟨.REQUEST, 3, some 0, 5, none⟩, ⟨.REQUEST, 1, some 0, 1, none⟩,
       ⟨.REQUEST, 2, some 0, 2, none⟩, ⟨.YIELD, 3, some 0, 10, none⟩,
       ⟨.YIELD, 3, some 0, 11, none⟩]).queue.map Prod.snd).Nodup := by
  decide

end Maekawa
